import Mathlib

set_option linter.unusedVariables false

/-!
Verification of the pickup-scheduling pipeline of this repository.

The embedding below translates the Python sources into Lean:
`network_api.py` / `travel_times.py` (graph build and the all-pairs
travel-time matrix), `job_builder.py` (pickup-job synthesis),
`job_windows.py` (window repair) and `test.py` (diagnostics).

Modelling conventions:
* Python floats are modelled as exact rationals (`ℚ`); pandas timestamps and
  timedeltas are rationals measured in minutes from a fixed origin.
* A matrix cell equal to `float("inf")` is modelled as `Option.none`.
* `networkx` graphs are modelled by an adjacency list holding one weighted
  entry per stored edge; for an undirected `nx.Graph` a single entry serves
  both orientations, exactly as the single shared attribute dict does.
* `nx.all_pairs_dijkstra_path_length` is modelled by its semantics on the
  non-negative weights the pipeline uses: the minimum total weight of a walk
  of at most `|V|` edges between the two endpoints (`none` when no walk
  exists).  All theorems that depend on the numeric value of a cell carry a
  non-negativity hypothesis on the input weights, the regime in which
  Dijkstra computes exactly this function.
-/

/-! ## Travel-Time Model: `build_graph` and `all_pairs_travel_time_matrix` -/

/-- A raw JSON weight as fed to Python `float(...)`: either a numeric value
(including numeric strings, which convert successfully) or a value on which
`float` raises. -/
inductive PyVal where
  | numeric (q : ℚ)
  | nonNumeric
deriving DecidableEq, Repr

/-- Python `float(x)`: succeeds on numeric input, raises otherwise. -/
def pyFloat : PyVal → Except String ℚ
  | PyVal.numeric q => Except.ok q
  | PyVal.nonNumeric => Except.error "could not convert value to float"

/-- One element of the edge list `{from, to, travel_time_minutes}` (`from`
and `to` are Lean keywords, hence `src` and `dst`). -/
structure RawEdge where
  src : String
  dst : String
  w : PyVal
deriving DecidableEq, Repr

/-- Stored weighted edges: `(endpoint1, endpoint2, travel_time)`. -/
abbrev AdjList := List (String × String × ℚ)

/-- Weight of the stored directed edge `u → v`, if present
(`G[u][v]["travel_time"]` on a `DiGraph`). -/
def lookupDir (u v : String) : AdjList → Option ℚ
  | [] => none
  | (a, b, x) :: rest =>
      if a = u ∧ b = v then some x else lookupDir u v rest

/-- Overwrite the weight of the stored directed edge `u → v`. -/
def setDir (u v : String) (w : ℚ) : AdjList → AdjList
  | [] => []
  | (a, b, x) :: rest =>
      if a = u ∧ b = v then (a, b, w) :: setDir u v w rest
      else (a, b, x) :: setDir u v w rest

/-- Weight stored for the unordered pair `{u, v}`, if present: on an
undirected `nx.Graph`, `G[u][v]` and `G[v][u]` read the same attribute. -/
def lookupPair (u v : String) : AdjList → Option ℚ
  | [] => none
  | (a, b, x) :: rest =>
      if (a = u ∧ b = v) ∨ (a = v ∧ b = u) then some x
      else lookupPair u v rest

/-- Overwrite the weight stored for the unordered pair `{u, v}`. -/
def setPair (u v : String) (w : ℚ) : AdjList → AdjList
  | [] => []
  | (a, b, x) :: rest =>
      if (a = u ∧ b = v) ∨ (a = v ∧ b = u) then (a, b, w) :: setPair u v w rest
      else (a, b, x) :: setPair u v w rest

/-- The graph produced by `build_graph`: the `directed` flag chooses between
`nx.DiGraph` and `nx.Graph` semantics. -/
structure Graph where
  directed : Bool
  adj : AdjList
  nodeList : List String
deriving DecidableEq

/-- `G.add_node(u)` semantics: nodes are a set; adding an existing node is a
no-op. -/
def addNode (G : Graph) (u : String) : Graph :=
  if u ∈ G.nodeList then G else { G with nodeList := G.nodeList ++ [u] }

/-- `G.add_edge(u, v, travel_time = w)` for `DiGraph`, and the undirected
branch of `build_graph`, which merges a duplicate unordered pair by taking
the minimum weight. -/
def addEdge (G : Graph) (u v : String) (w : ℚ) : Graph :=
  let G1 := addNode (addNode G u) v
  if G1.directed then
    { G1 with adj :=
        match lookupDir u v G1.adj with
        | some _ => setDir u v w G1.adj
        | none => G1.adj ++ [(u, v, w)] }
  else
    { G1 with adj :=
        match lookupPair u v G1.adj with
        | some w0 => setPair u v (min w0 w) G1.adj
        | none => G1.adj ++ [(u, v, w)] }

/-- The edge loop of `build_graph`: convert each weight with `float`
(propagating the exception) and insert the edge. -/
def build_graph_go : List RawEdge → Graph → Except String Graph
  | [], G => Except.ok G
  | e :: rest, G =>
      match pyFloat e.w with
      | Except.error s => Except.error s
      | Except.ok w => build_graph_go rest (addEdge G e.src e.dst w)

/-- `build_graph(edges, directed)`: an `Except` value models the fact that a
raised `float` conversion error aborts construction, so no graph (and hence
no travel-time matrix) is produced. -/
def build_graph_checked (edges : List RawEdge) (directed : Bool) :
    Except String Graph :=
  build_graph_go edges ⟨directed, [], []⟩

/-- Minimum of a list of rationals, `none` on the empty list. -/
def listMin : List ℚ → Option ℚ
  | [] => none
  | x :: xs =>
      match listMin xs with
      | none => some x
      | some m => some (min x m)

/-- Neighbors (with edge weights) reachable in one step from `u`: out-edges
for a `DiGraph`; both orientations of every stored entry for an undirected
`Graph`. -/
def succList (G : Graph) (u : String) : List (String × ℚ) :=
  if G.directed then
    (G.adj.filter (fun t => decide (t.1 = u))).map (fun t => (t.2.1, t.2.2))
  else
    (G.adj.filter (fun t => decide (t.1 = u))).map (fun t => (t.2.1, t.2.2)) ++
      (G.adj.filter (fun t => decide (t.2.1 = u))).map (fun t => (t.1, t.2.2))

/-- Total weights of all walks from `u` to `v` using at most `k` edges. -/
def walkCosts (G : Graph) : ℕ → String → String → List ℚ
  | 0, u, v => if u = v then [(0 : ℚ)] else []
  | k + 1, u, v =>
      (if u = v then [(0 : ℚ)] else []) ++
        (succList G u).flatMap (fun p => (walkCosts G k p.1 v).map (fun c => p.2 + c))

/-- One cell of `all_pairs_travel_time_matrix(G)`: the Dijkstra shortest-path
length from `u` to `v` (`none` models the `float("inf")` fill for an
unreachable pair).  On non-negative weights this equals the minimum walk
weight, and any walk can be restricted to at most `|V|` edges. -/
def all_pairs_travel_time_matrix (G : Graph) (u v : String) : Option ℚ :=
  listMin (walkCosts G G.nodeList.length u v)

/-- All successfully converted weights of input edges joining the unordered
pair `{u, v}` (in input order). -/
def pairWeights (edges : List RawEdge) (u v : String) : List ℚ :=
  edges.filterMap (fun e =>
    match pyFloat e.w with
    | Except.ok w =>
        if (e.src = u ∧ e.dst = v) ∨ (e.src = v ∧ e.dst = u) then some w else none
    | Except.error _ => none)

example :
    build_graph_checked [⟨"A", "B", PyVal.numeric 10⟩] true =
      Except.ok ⟨true, [("A", "B", 10)], ["A", "B"]⟩ := by rfl

example :
    (build_graph_checked [⟨"A", "B", PyVal.numeric 10⟩, ⟨"B", "A", PyVal.numeric 12⟩] false).map
      (fun G => all_pairs_travel_time_matrix G "A" "B") = Except.ok (some 10) := by
  with_unfolding_all rfl

/-! ## Job Synthesizer: `_interp_cross_time` and `build_pickup_jobs` -/

/-- A pickup job row as emitted by `build_pickup_jobs` and consumed by
`widen_and_shift_windows`, `basic_lower_bounds` and `tight_windows`.
Python builds `job_id = f"{cid}__{int(earliest.value/1e9)}__{k}"`; it is
determined by `(node_id, earliest, idK)`, so distinct `idK` with equal node
and `earliest` give distinct Python id strings. -/
structure Job where
  node_id : String
  idK : ℕ
  earliest : ℚ
  latest : ℚ
  demand : ℚ
  service_time : ℚ
  target_level : ℚ
  threshold : ℚ
  max_volume : ℚ
  lat : ℚ
  lon : ℚ
deriving DecidableEq, Repr

/-- Loop body of `_interp_cross_time`: scan consecutive samples `(t, v)`,
`p` holding sample `i - 1`. -/
def interpCrossAux (threshold : ℚ) : ℚ × ℚ → List (ℚ × ℚ) → Option ℚ
  | _, [] => none
  | (t0, v0), (t1, v1) :: rest =>
      if v0 < threshold ∧ threshold ≤ v1 then
        some (if v1 = v0 then t1 else t0 + (t1 - t0) * ((threshold - v0) / (v1 - v0)))
      else interpCrossAux threshold (t1, v1) rest

/-- `_interp_cross_time(ts_index, values, threshold)` on the zipped samples:
first upward crossing time through `threshold`, linearly interpolated;
`none` when the curve never crosses. -/
def interpCrossTime (pts : List (ℚ × ℚ)) (threshold : ℚ) : Option ℚ :=
  match pts with
  | [] => none
  | p :: rest => interpCrossAux threshold p rest

/-- The `level_at_earliest` computation of `build_pickup_jobs`: bound
`earliest` by the last sample time `≤` it and the first sample time `≥` it
and interpolate linearly; fall back to the first sample when a bound is
missing.  (The sample index is assumed duplicate-free, as a pandas
`DatetimeIndex` of hourly forecasts is; `.loc` then reads the paired value.) -/
def levelAt (pts : List (ℚ × ℚ)) (earliest : ℚ) : ℚ :=
  let before := pts.filter (fun p => decide (p.1 ≤ earliest))
  let after := pts.filter (fun p => decide (earliest ≤ p.1))
  match before.getLast?, after.head? with
  | some (t0, v0), some (t1, v1) =>
      if t0 = t1 then v0 else v0 + (v1 - v0) * ((earliest - t0) / (t1 - t0))
  | _, _ => ((pts.head?).getD (0, 0)).2

/-- The record appended by `emit_job(d, k)`. -/
def mkJob (cid : String) (earliest latest d svc target threshold max_vol lat lon : ℚ)
    (k : ℕ) : Job :=
  ⟨cid, k, earliest, latest, d, svc, target, threshold, max_vol, lat, lon⟩

/-- The body of the `for cid in future_wide.columns` loop of
`build_pickup_jobs`, for one collection node.  Notes on fidelity:
* Python tests `if max_job_split_capacity and demand > ...`, so a configured
  capacity of `0` is falsy and never splits; this is the `cap ≠ 0` test.
* `n = int(np.ceil(demand / cap))` is `⌈demand / cap⌉`; for the positive
  capacities our theorems use, `n ≥ 1`.  (With a negative capacity and
  `⌈demand / cap⌉ = 0`, Python raises `ZeroDivisionError` at
  `base = demand / n`; that branch is outside every hypothesis below and is
  rendered here by the `ℚ`-division convention `d / 0 = 0` and an empty
  `List.range 0`.) -/
def jobsForNode (cid : String) (pts : List (ℚ × ℚ)) (max_vol lat lon : ℚ)
    (overflow_frac target_frac buffer_min service_time_min : ℚ)
    (max_job_split_capacity : Option ℚ) : List Job :=
  let threshold := overflow_frac * max_vol
  let target := target_frac * max_vol
  match interpCrossTime pts threshold with
  | none => []
  | some cross_time =>
      let earliest := cross_time - buffer_min
      let latest := max (cross_time + 15) (earliest + 15)
      let level_at_earliest := levelAt pts earliest
      let demand := max 0 (level_at_earliest - target)
      if demand ≤ 1 / 1000000 then []
      else
        match max_job_split_capacity with
        | some cap =>
            if cap ≠ 0 ∧ cap < demand then
              let n : ℤ := ⌈demand / cap⌉
              let base := demand / (n : ℚ)
              (List.range n.toNat).map
                (fun k => mkJob cid earliest latest base service_time_min target
                  threshold max_vol lat lon k)
            else
              [mkJob cid earliest latest demand service_time_min target threshold
                max_vol lat lon 0]
        | none =>
            [mkJob cid earliest latest demand service_time_min target threshold
              max_vol lat lon 0]

/-- One row of the `cauldrons` frame, keyed by `id`. -/
structure Cauldron where
  id : String
  max_volume : ℚ
  latitude : ℚ
  longitude : ℚ
deriving DecidableEq, Repr

/-- `meta.loc[cid]` after `cauldrons.set_index("id")`: the metadata row for
`cid` (ids assumed unique, as facility ids are; first match). -/
def metaLookup (cauldrons : List Cauldron) (cid : String) : Option Cauldron :=
  cauldrons.find? (fun c => c.id == cid)

/-- Sort key of `jobs.sort_values(["earliest", "node_id"])`. -/
def jobKeyLt (a b : Job) : Prop :=
  a.earliest < b.earliest ∨ (a.earliest = b.earliest ∧ a.node_id < b.node_id)

instance (a b : Job) : Decidable (jobKeyLt a b) := by
  unfold jobKeyLt; infer_instance

/-- Stable insertion into a list sorted by `(earliest, node_id)`. -/
def insertJob (a : Job) : List Job → List Job
  | [] => [a]
  | b :: rest => if jobKeyLt a b then a :: b :: rest else b :: insertJob a rest

/-- `sort_values(["earliest", "node_id"])` (pandas multi-key sorting is a
stable lexsort; stability and ordering do not matter to the claims below,
which only inspect membership). -/
def sortJobs : List Job → List Job
  | [] => []
  | a :: rest => insertJob a (sortJobs rest)

/-- `build_pickup_jobs(future_wide, cauldrons, ...)`: every forecast column
(node id paired with its zipped `(timestamp, level)` samples) contributes
its jobs, skipping ids missing from the metadata; the result is sorted by
`(earliest, node_id)`. -/
def build_pickup_jobs (future_wide : List (String × List (ℚ × ℚ)))
    (cauldrons : List Cauldron)
    (overflow_frac target_frac buffer_min service_time_min : ℚ)
    (max_job_split_capacity : Option ℚ) : List Job :=
  sortJobs (future_wide.flatMap (fun col =>
    match metaLookup cauldrons col.1 with
    | none => []
    | some m =>
        jobsForNode col.1 col.2 m.max_volume m.latitude m.longitude
          overflow_frac target_frac buffer_min service_time_min
          max_job_split_capacity))

example :
    interpCrossTime [(0, 50), (60, 60), (120, 95), (180, 40)] (9 / 10 * 100) =
      some (60 + 60 * (30 / 35)) := by with_unfolding_all rfl

example :
    jobsForNode "C7" [(0, 800), (60, 900)] 1000 0 0 (9 / 10) (1 / 5) 0 8 (some 100) =
      (List.range 7).map (fun k => mkJob "C7" 60 75 100 8 200 900 1000 0 0 k) := by
  with_unfolding_all rfl

/-! ## Window Repair: `widen_and_shift_windows` -/

/-- The travel-time matrix as consumed downstream (`travel_minutes.loc[a, b]`);
`none` models an infinite cell. -/
abbrev TravelTimes := String → String → Option ℚ

/-- Python `round(x)` at integer midpoints: round half to even. -/
def pyRound (q : ℚ) : ℤ :=
  let f := ⌊q⌋
  let r := q - (f : ℚ)
  if r < 1 / 2 then f
  else if 1 / 2 < r then f + 1
  else if f % 2 = 0 then f else f + 1

/-- The body of the `for i, r in jobs.iterrows()` loop of
`widen_and_shift_windows` applied to one job.
* `need = int(round(t_dep + r["service_time"] + add_slack_min))` is `pyRound`;
* `have = int((latest - earliest).total_seconds() // 60)` is the floor of the
  window duration in minutes;
* Python `//` on integers is `Int.fdiv`. -/
def repairWindow (travel_minutes : TravelTimes) (depot_id : String)
    (min_window_min add_slack_min : ℤ) (j : Job) : Job :=
  match travel_minutes depot_id j.node_id with
  | none => j
  | some t_dep =>
      let need : ℤ := pyRound (t_dep + j.service_time + (add_slack_min : ℚ))
      let have1 : ℤ := ⌊j.latest - j.earliest⌋
      let e1 : ℚ :=
        if have1 < need then
          j.earliest - (((need - have1).fdiv 2 + add_slack_min.fdiv 2 : ℤ) : ℚ)
        else j.earliest
      let l1 : ℚ :=
        if have1 < need then
          j.latest + ((((need - have1) - (need - have1).fdiv 2) + add_slack_min.fdiv 2 : ℤ) : ℚ)
        else j.latest
      let have2 : ℤ := ⌊l1 - e1⌋
      let e2 : ℚ :=
        if have2 < min_window_min then e1 - (((min_window_min - have2).fdiv 2 : ℤ) : ℚ)
        else e1
      let l2 : ℚ :=
        if have2 < min_window_min then
          l1 + ((((min_window_min - have2) - (min_window_min - have2).fdiv 2) : ℤ) : ℚ)
        else l1
      { j with earliest := e2, latest := l2 }

/-- `widen_and_shift_windows(jobs, travel_minutes, depot_id, min_window_min,
add_slack_min)`: each row's window is repaired independently (rows with an
infinite depot travel time are left untouched). -/
def widen_and_shift_windows (jobs : List Job) (travel_minutes : TravelTimes)
    (depot_id : String) (min_window_min add_slack_min : ℤ) : List Job :=
  jobs.map (repairWindow travel_minutes depot_id min_window_min add_slack_min)

/-! ## Diagnostics: `basic_lower_bounds` and `tight_windows` -/

/-- `basic_lower_bounds(jobs, vehicle_capacity, shift_length_min)` returns
`max(1, ceil(total_demand / vehicle_capacity))` (the `shift_length_min`
parameter is accepted and unused, as in the source). -/
def basic_lower_bounds (jobs : List Job) (vehicle_capacity : ℚ)
    (shift_length_min : ℤ) : ℤ :=
  max 1 ⌈(jobs.map (fun j => j.demand)).sum / vehicle_capacity⌉

/-- A row of the `tight_windows` report: either the `"UNREACHABLE"` marker or
the `"too tight: window=… < need≈…"` message, which carries the window
duration and the needed minutes it formats. -/
inductive TightFlag where
  | unreachable
  | tooTight (window need : ℚ)
deriving DecidableEq, Repr

/-- The body of the `for _, r in jobs.iterrows()` loop of `tight_windows`:
the row appended for job `j`, if any. -/
def tightRow (travel_minutes : TravelTimes) (depot_id : String)
    (min_service_pad : ℚ) (j : Job) : Option (String × TightFlag) :=
  let window := j.latest - j.earliest
  match travel_minutes depot_id j.node_id with
  | none => some (j.node_id, TightFlag.unreachable)
  | some t_dep =>
      if window < max t_dep (max j.service_time min_service_pad) then
        some (j.node_id,
          TightFlag.tooTight window (max t_dep (max j.service_time min_service_pad)))
      else none

/-- `tight_windows(jobs, travel_minutes, depot_id, min_service_pad)`. -/
def tight_windows (jobs : List Job) (travel_minutes : TravelTimes)
    (depot_id : String) (min_service_pad : ℚ) : List (String × TightFlag) :=
  jobs.filterMap (tightRow travel_minutes depot_id min_service_pad)

example : pyRound (93 : ℚ) = 93 := by with_unfolding_all rfl

example : pyRound (5 / 2 : ℚ) = 2 ∧ pyRound (7 / 2 : ℚ) = 4 := by
  with_unfolding_all decide

example :
    basic_lower_bounds
      [mkJob "A" 0 60 130 8 0 0 0 0 0 0, mkJob "B" 0 60 100 8 0 0 0 0 0 0] 100 480 = 3 := by
  with_unfolding_all rfl

example :
    widen_and_shift_windows [mkJob "A" 0 10 5 8 0 0 0 0 0 0]
      (fun _ _ => some 40) "D" 60 45 =
      [mkJob "A" (-63) 74 5 8 0 0 0 0 0 0] := by
  with_unfolding_all rfl

/-! ## Supporting lemmas: list minima -/

theorem listMin_eq_none_iff (L : List ℚ) : listMin L = none ↔ L = [] := by
  cases L with
  | nil => simp [listMin]
  | cons x xs =>
      simp only [listMin]
      cases h : listMin xs <;> simp

/-- Merge of two optional minima (`none` is the identity). -/
def mergeO : Option ℚ → Option ℚ → Option ℚ
  | none, b => b
  | some x, none => some x
  | some x, some y => some (min x y)

theorem listMin_cons (x : ℚ) (xs : List ℚ) :
    listMin (x :: xs) = mergeO (some x) (listMin xs) := by
  rw [listMin]
  cases listMin xs <;> rfl

theorem listMin_spec {L : List ℚ} {m : ℚ} (h : listMin L = some m) :
    m ∈ L ∧ ∀ y ∈ L, m ≤ y := by
  induction L generalizing m with
  | nil => simp [listMin] at h
  | cons x xs ih =>
      rw [listMin_cons] at h
      cases hx : listMin xs with
      | none =>
          rw [hx] at h
          have hxm : x = m := by simpa [mergeO] using h
          subst hxm
          have hxs : xs = [] := (listMin_eq_none_iff xs).mp hx
          subst hxs
          exact ⟨by simp, by intro y hy; simp at hy; simp [hy]⟩
      | some m0 =>
          rw [hx] at h
          have hm : min x m0 = m := by simpa [mergeO] using h
          obtain ⟨hmem, hle⟩ := ih hx
          subst hm
          constructor
          · rcases le_total x m0 with hc | hc
            · simp [min_eq_left hc]
            · have hmin : min x m0 = m0 := min_eq_right hc
              rw [hmin]
              exact List.mem_cons_of_mem _ hmem
          · intro y hy
            rcases List.mem_cons.mp hy with rfl | hy
            · exact min_le_left _ _
            · exact le_trans (min_le_right _ _) (hle y hy)

theorem listMin_congr {L1 L2 : List ℚ} (h : ∀ c, c ∈ L1 ↔ c ∈ L2) :
    listMin L1 = listMin L2 := by
  cases h1 : listMin L1 with
  | none =>
      cases h2 : listMin L2 with
      | none => rfl
      | some m2 =>
          have hn : L1 = [] := (listMin_eq_none_iff L1).mp h1
          have hm : m2 ∈ L1 := (h m2).mpr (listMin_spec h2).1
          simp [hn] at hm
  | some m1 =>
      cases h2 : listMin L2 with
      | none =>
          have hn : L2 = [] := (listMin_eq_none_iff L2).mp h2
          have hm : m1 ∈ L2 := (h m1).mp (listMin_spec h1).1
          simp [hn] at hm
      | some m2 =>
          obtain ⟨hmem1, hle1⟩ := listMin_spec h1
          obtain ⟨hmem2, hle2⟩ := listMin_spec h2
          have h12 : m1 ≤ m2 := hle1 m2 ((h m2).mpr hmem2)
          have h21 : m2 ≤ m1 := hle2 m1 ((h m1).mp hmem1)
          rw [le_antisymm h12 h21]

theorem mergeO_none_right (a : Option ℚ) : mergeO a none = a := by
  cases a <;> rfl

theorem mergeO_assoc (a b c : Option ℚ) :
    mergeO (mergeO a b) c = mergeO a (mergeO b c) := by
  cases a <;> cases b <;> cases c <;> simp [mergeO, min_assoc]

/-! ## Supporting lemmas: walks and shortest distances -/

/-- A walk in `G` from the first node to the second with the given total
weight and number of edges. -/
inductive HasWalk (G : Graph) : String → String → ℚ → ℕ → Prop where
  | nil (u : String) : HasWalk G u u 0 0
  | cons {u v : String} {w c : ℚ} {k : ℕ} (x : String) :
      (x, w) ∈ succList G u → HasWalk G x v c k → HasWalk G u v (w + c) (k + 1)

theorem zero_mem_walkCosts_self (G : Graph) (u : String) :
    ∀ k, (0 : ℚ) ∈ walkCosts G k u u := by
  intro k
  cases k with
  | zero => simp [walkCosts]
  | succ k => simp [walkCosts]

theorem hasWalk_of_mem_walkCosts {G : Graph} :
    ∀ {k : ℕ} {u v : String} {c : ℚ}, c ∈ walkCosts G k u v →
      ∃ m, m ≤ k ∧ HasWalk G u v c m := by
  intro k
  induction k with
  | zero =>
      intro u v c hc
      by_cases huv : u = v
      · subst huv
        simp [walkCosts] at hc
        subst hc
        exact ⟨0, le_refl 0, HasWalk.nil u⟩
      · simp [walkCosts, huv] at hc
  | succ k ih =>
      intro u v c hc
      rw [walkCosts] at hc
      rcases List.mem_append.mp hc with hl | hr
      · by_cases huv : u = v
        · subst huv
          simp at hl
          subst hl
          exact ⟨0, Nat.zero_le _, HasWalk.nil u⟩
        · simp [huv] at hl
      · rcases List.mem_flatMap.mp hr with ⟨p, hp, hc'⟩
        rcases List.mem_map.mp hc' with ⟨c0, hc0, rfl⟩
        rcases ih hc0 with ⟨m, hm, hw⟩
        exact ⟨m + 1, Nat.succ_le_succ hm,
          HasWalk.cons p.1 (by simpa using hp) hw⟩

theorem mem_walkCosts_of_hasWalk {G : Graph} {u v : String} {c : ℚ} {m : ℕ}
    (h : HasWalk G u v c m) : ∀ {k : ℕ}, m ≤ k → c ∈ walkCosts G k u v := by
  induction h with
  | nil u =>
      intro k _
      exact zero_mem_walkCosts_self G u k
  | cons x hx hw ih =>
      intro k hk
      cases k with
      | zero => exact absurd hk (by simp)
      | succ k =>
          rw [walkCosts]
          refine List.mem_append.mpr (Or.inr ?_)
          refine List.mem_flatMap.mpr ⟨(x, _), hx, ?_⟩
          exact List.mem_map.mpr ⟨_, ih (Nat.le_of_succ_le_succ hk), rfl⟩

theorem hasWalk_nonneg {G : Graph}
    (hw : ∀ u x (w : ℚ), (x, w) ∈ succList G u → 0 ≤ w)
    {u v : String} {c : ℚ} {m : ℕ} (h : HasWalk G u v c m) : 0 ≤ c := by
  induction h with
  | nil => exact le_refl 0
  | cons x hx _ ih => exact add_nonneg (hw _ _ _ hx) ih

theorem mem_succList_directed {G : Graph} (hd : G.directed = true)
    {u x : String} {w : ℚ} : (x, w) ∈ succList G u ↔ (u, x, w) ∈ G.adj := by
  unfold succList
  rw [hd]
  simp only [if_true, List.mem_map, List.mem_filter]
  constructor
  · rintro ⟨⟨a, b, y⟩, ⟨hmem, ha⟩, heq⟩
    simp at ha heq
    obtain ⟨h1, h2⟩ := heq
    subst ha; subst h1; subst h2
    exact hmem
  · intro hmem
    exact ⟨(u, x, w), ⟨hmem, by simp⟩, rfl⟩

theorem mem_succList_undirected {G : Graph} (hd : G.directed = false)
    {u x : String} {w : ℚ} :
    (x, w) ∈ succList G u ↔ (u, x, w) ∈ G.adj ∨ (x, u, w) ∈ G.adj := by
  unfold succList
  rw [hd]
  simp only [Bool.false_eq_true, if_false, List.mem_append, List.mem_map,
    List.mem_filter]
  constructor
  · rintro (⟨⟨a, b, y⟩, ⟨hmem, ha⟩, heq⟩ | ⟨⟨a, b, y⟩, ⟨hmem, ha⟩, heq⟩)
    · simp at ha heq
      obtain ⟨h1, h2⟩ := heq
      subst ha; subst h1; subst h2
      exact Or.inl hmem
    · simp at ha heq
      obtain ⟨h1, h2⟩ := heq
      subst ha; subst h1; subst h2
      exact Or.inr hmem
  · rintro (hmem | hmem)
    · exact Or.inl ⟨(u, x, w), ⟨hmem, by simp⟩, rfl⟩
    · exact Or.inr ⟨(x, u, w), ⟨hmem, by simp⟩, rfl⟩

theorem succList_symm {G : Graph} (hd : G.directed = false)
    {u x : String} {w : ℚ} : (x, w) ∈ succList G u ↔ (u, w) ∈ succList G x := by
  rw [mem_succList_undirected hd, mem_succList_undirected hd]
  exact or_comm

theorem HasWalk.snoc {G : Graph} {u x v : String} {c w : ℚ} {m : ℕ}
    (h : HasWalk G u x c m) (hx : (v, w) ∈ succList G x) :
    HasWalk G u v (c + w) (m + 1) := by
  induction h with
  | nil u =>
      have := HasWalk.cons (G := G) (v := v) v hx (HasWalk.nil v)
      simpa [add_comm] using this
  | cons y hy hw ih =>
      have := HasWalk.cons (G := G) y hy (ih hx)
      simpa [add_assoc] using this

theorem HasWalk.reverse {G : Graph} (hd : G.directed = false)
    {u v : String} {c : ℚ} {m : ℕ} (h : HasWalk G u v c m) :
    HasWalk G v u c m := by
  induction h with
  | nil u => exact HasWalk.nil u
  | cons x hx hw ih =>
      have hx' := (succList_symm hd).mp hx
      have := ih.snoc hx'
      simpa [add_comm] using this

/-! ## Supporting lemmas: graph construction -/

theorem addNode_directed (G : Graph) (u : String) :
    (addNode G u).directed = G.directed := by
  unfold addNode
  split <;> rfl

theorem addNode_adj (G : Graph) (u : String) : (addNode G u).adj = G.adj := by
  unfold addNode
  split <;> rfl

theorem addEdge_directed (G : Graph) (u v : String) (w : ℚ) :
    (addEdge G u v w).directed = G.directed := by
  unfold addEdge
  dsimp only
  split <;> simp [addNode_directed]

theorem build_graph_go_directed :
    ∀ (edges : List RawEdge) (G G' : Graph),
      build_graph_go edges G = Except.ok G' → G'.directed = G.directed := by
  intro edges
  induction edges with
  | nil =>
      intro G G' h
      rw [build_graph_go] at h
      injection h with h
      rw [h]
  | cons e rest ih =>
      intro G G' h
      rw [build_graph_go] at h
      cases hp : pyFloat e.w with
      | error s => rw [hp] at h; exact absurd h (by simp)
      | ok w =>
          rw [hp] at h
          exact (ih _ _ h).trans (addEdge_directed _ _ _ _)

theorem lookupPair_some_mem {u v : String} :
    ∀ {l : AdjList} {w : ℚ}, lookupPair u v l = some w →
      ∃ a b, (a, b, w) ∈ l := by
  intro l
  induction l with
  | nil => intro w h; simp [lookupPair] at h
  | cons t rest ih =>
      intro w h
      obtain ⟨a, b, x⟩ := t
      rw [lookupPair] at h
      split at h
      · injection h with h
        exact ⟨a, b, by simp [h]⟩
      · rcases ih h with ⟨a', b', hm⟩
        exact ⟨a', b', List.mem_cons_of_mem _ hm⟩

theorem mem_setPair {u v : String} {x : ℚ} :
    ∀ {l : AdjList} {t : String × String × ℚ}, t ∈ setPair u v x l →
      t.2.2 = x ∨ t ∈ l := by
  intro l
  induction l with
  | nil => intro t h; simp [setPair] at h
  | cons s rest ih =>
      intro t h
      obtain ⟨a, b, y⟩ := s
      rw [setPair] at h
      split at h <;> rcases List.mem_cons.mp h with rfl | h
      · exact Or.inl rfl
      · rcases ih h with h | h
        · exact Or.inl h
        · exact Or.inr (List.mem_cons_of_mem _ h)
      · exact Or.inr (List.mem_cons_self _ _)
      · rcases ih h with h | h
        · exact Or.inl h
        · exact Or.inr (List.mem_cons_of_mem _ h)

theorem mem_setDir {u v : String} {x : ℚ} :
    ∀ {l : AdjList} {t : String × String × ℚ}, t ∈ setDir u v x l →
      t.2.2 = x ∨ t ∈ l := by
  intro l
  induction l with
  | nil => intro t h; simp [setDir] at h
  | cons s rest ih =>
      intro t h
      obtain ⟨a, b, y⟩ := s
      rw [setDir] at h
      split at h <;> rcases List.mem_cons.mp h with rfl | h
      · exact Or.inl rfl
      · rcases ih h with h | h
        · exact Or.inl h
        · exact Or.inr (List.mem_cons_of_mem _ h)
      · exact Or.inr (List.mem_cons_self _ _)
      · rcases ih h with h | h
        · exact Or.inl h
        · exact Or.inr (List.mem_cons_of_mem _ h)

theorem lookupDir_some_mem {u v : String} :
    ∀ {l : AdjList} {w : ℚ}, lookupDir u v l = some w →
      ∃ a b, (a, b, w) ∈ l := by
  intro l
  induction l with
  | nil => intro w h; simp [lookupDir] at h
  | cons t rest ih =>
      intro w h
      obtain ⟨a, b, x⟩ := t
      rw [lookupDir] at h
      split at h
      · injection h with h
        exact ⟨a, b, by simp [h]⟩
      · rcases ih h with ⟨a', b', hm⟩
        exact ⟨a', b', List.mem_cons_of_mem _ hm⟩

theorem addEdge_weights_nonneg {G : Graph} {u v : String} {w : ℚ}
    (hG : ∀ t ∈ G.adj, 0 ≤ t.2.2) (hw : 0 ≤ w) :
    ∀ t ∈ (addEdge G u v w).adj, 0 ≤ t.2.2 := by
  intro t ht
  unfold addEdge at ht
  dsimp only at ht
  rw [addNode_adj, addNode_adj] at ht
  split at ht
  · simp only at ht
    split at ht
    · rcases mem_setDir ht with h | h
      · rw [h]; exact hw
      · exact hG t h
    · rcases List.mem_append.mp ht with h | h
      · exact hG t h
      · simp at h
        subst h
        exact hw
  · simp only at ht
    split at ht
    · rename_i w0 hl
      rcases mem_setPair ht with h | h
      · rw [h]
        rcases lookupPair_some_mem hl with ⟨a, b, hm⟩
        exact le_min (hG _ hm) hw
      · exact hG t h
    · rcases List.mem_append.mp ht with h | h
      · exact hG t h
      · simp at h
        subst h
        exact hw

theorem build_graph_go_weights_nonneg :
    ∀ (edges : List RawEdge) (G G' : Graph),
      (∀ e ∈ edges, ∀ q, e.w = PyVal.numeric q → 0 ≤ q) →
      (∀ t ∈ G.adj, 0 ≤ t.2.2) →
      build_graph_go edges G = Except.ok G' →
      ∀ t ∈ G'.adj, 0 ≤ t.2.2 := by
  intro edges
  induction edges with
  | nil =>
      intro G G' _ hG h
      rw [build_graph_go] at h
      injection h with h
      rw [← h]
      exact hG
  | cons e rest ih =>
      intro G G' he hG h
      rw [build_graph_go] at h
      cases hp : pyFloat e.w with
      | error s => rw [hp] at h; exact absurd h (by simp)
      | ok w =>
          rw [hp] at h
          have hw : 0 ≤ w := by
            cases hew : e.w with
            | numeric q =>
                rw [hew] at hp
                injection hp with hp
                rw [← hp]
                exact he e (List.mem_cons_self _ _) q hew
            | nonNumeric => rw [hew] at hp; exact absurd hp (by simp [pyFloat])
          exact ih _ _ (fun e' he' => he e' (List.mem_cons_of_mem _ he'))
            (addEdge_weights_nonneg hG hw) h

theorem succList_weight_mem {G : Graph} {u x : String} {w : ℚ}
    (h : (x, w) ∈ succList G u) : ∃ a b, (a, b, w) ∈ G.adj := by
  cases hd : G.directed with
  | true =>
      exact ⟨u, x, (mem_succList_directed hd).mp h⟩
  | false =>
      rcases (mem_succList_undirected hd).mp h with h | h
      · exact ⟨u, x, h⟩
      · exact ⟨x, u, h⟩

/-! ## Claim C1: diagonal zero and non-negative travel-time matrix -/

/-- C1: for every input edge list of well-formed edges (numeric,
non-negative travel times, as the data model defines an `Edge`) whose graph
construction succeeds, the all-pairs travel-time matrix has `[n][n] = 0` for
every node `n` of the built graph, and no entry of the matrix is negative
(an infinite cell is `none` and carries no value). -/
theorem travel_matrix_diag_zero_nonneg (edges : List RawEdge) (d : Bool) (G : Graph)
    (hok : build_graph_checked edges d = Except.ok G)
    (hnn : ∀ e ∈ edges, ∀ q, e.w = PyVal.numeric q → 0 ≤ q) :
    (∀ n ∈ G.nodeList, all_pairs_travel_time_matrix G n n = some 0) ∧
    (∀ u v q, all_pairs_travel_time_matrix G u v = some q → 0 ≤ q) := by
  have hadj : ∀ t ∈ G.adj, 0 ≤ t.2.2 :=
    build_graph_go_weights_nonneg edges _ G hnn (by simp) hok
  have hsucc : ∀ u x (w : ℚ), (x, w) ∈ succList G u → 0 ≤ w := by
    intro u x w h
    rcases succList_weight_mem h with ⟨a, b, hm⟩
    exact hadj _ hm
  have hnonneg : ∀ u v (q : ℚ), all_pairs_travel_time_matrix G u v = some q → 0 ≤ q := by
    intro u v q h
    unfold all_pairs_travel_time_matrix at h
    have hq := (listMin_spec h).1
    rcases hasWalk_of_mem_walkCosts hq with ⟨m, _, hwk⟩
    exact hasWalk_nonneg hsucc hwk
  refine ⟨?_, hnonneg⟩
  intro n _
  have h0 : (0 : ℚ) ∈ walkCosts G G.nodeList.length n n :=
    zero_mem_walkCosts_self G n _
  cases hmin : all_pairs_travel_time_matrix G n n with
  | none =>
      unfold all_pairs_travel_time_matrix at hmin
      rw [(listMin_eq_none_iff _).mp hmin] at h0
      simp at h0
  | some m =>
      have hmin' := hmin
      unfold all_pairs_travel_time_matrix at hmin'
      have hspec := listMin_spec hmin'
      have h1 : m ≤ 0 := hspec.2 0 h0
      have h2 : 0 ≤ m := hnonneg n n m hmin
      rw [le_antisymm h1 h2]

theorem travel_matrix_diag_zero_nonneg_witness :
    all_pairs_travel_time_matrix ⟨true, [("A", "B", 10)], ["A", "B"]⟩ "A" "A" = some 0 :=
  (travel_matrix_diag_zero_nonneg [⟨"A", "B", PyVal.numeric 10⟩] true
      ⟨true, [("A", "B", 10)], ["A", "B"]⟩ (by rfl)
      (by
        rintro e he q hq
        simp at he
        subst he
        simp at hq
        rw [← hq]
        norm_num)).1 "A" (by simp)

/-! ## Claim C2: undirected builds are symmetric and min-merge duplicates -/

theorem pair_symm {a b u v : String}
    (h : (a = u ∧ b = v) ∨ (a = v ∧ b = u)) :
    (u = a ∧ v = b) ∨ (u = b ∧ v = a) := by
  rcases h with ⟨rfl, rfl⟩ | ⟨rfl, rfl⟩ <;> tauto

theorem pair_trans {p q a b u v : String}
    (h1 : (p = a ∧ q = b) ∨ (p = b ∧ q = a))
    (h2 : (p = u ∧ q = v) ∨ (p = v ∧ q = u)) :
    (a = u ∧ b = v) ∨ (a = v ∧ b = u) := by
  rcases h1 with ⟨rfl, rfl⟩ | ⟨rfl, rfl⟩ <;> tauto

theorem lookupPair_pair_congr {a b u v : String}
    (h : (a = u ∧ b = v) ∨ (a = v ∧ b = u)) :
    ∀ l : AdjList, lookupPair u v l = lookupPair a b l := by
  intro l
  induction l with
  | nil => rfl
  | cons t rest ih =>
      obtain ⟨p, q, y⟩ := t
      rw [lookupPair, lookupPair]
      by_cases hm : (p = u ∧ q = v) ∨ (p = v ∧ q = u)
      · rw [if_pos hm, if_pos (pair_trans (pair_symm hm) (pair_symm h))]
      · rw [if_neg hm, if_neg (fun hc => hm (pair_trans (pair_symm hc) h)), ih]

theorem lookupPair_setPair {a b u v : String} {x : ℚ} :
    ∀ l : AdjList,
      lookupPair u v (setPair a b x l) =
        if (a = u ∧ b = v) ∨ (a = v ∧ b = u) then
          (lookupPair u v l).map (fun _ => x)
        else lookupPair u v l := by
  intro l
  induction l with
  | nil => cases Classical.em ((a = u ∧ b = v) ∨ (a = v ∧ b = u)) with
    | inl h => simp [setPair, lookupPair, if_pos h]
    | inr h => simp [setPair, lookupPair, if_neg h]
  | cons t rest ih =>
      obtain ⟨p, q, y⟩ := t
      rw [setPair]
      by_cases hpm : (p = a ∧ q = b) ∨ (p = b ∧ q = a)
      · rw [if_pos hpm, lookupPair]
        by_cases hpm2 : (p = u ∧ q = v) ∨ (p = v ∧ q = u)
        · have hcond : (a = u ∧ b = v) ∨ (a = v ∧ b = u) := pair_trans hpm hpm2
          rw [if_pos hpm2, if_pos hcond, lookupPair, if_pos hpm2]
          rfl
        · have hcond : ¬((a = u ∧ b = v) ∨ (a = v ∧ b = u)) := by
            intro hc
            exact hpm2 (pair_trans (pair_symm hpm) hc)
          rw [if_neg hpm2, ih, if_neg hcond, if_neg hcond, lookupPair, if_neg hpm2]
      · rw [if_neg hpm, lookupPair]
        by_cases hpm2 : (p = u ∧ q = v) ∨ (p = v ∧ q = u)
        · by_cases hcond : (a = u ∧ b = v) ∨ (a = v ∧ b = u)
          · exact absurd (pair_trans (pair_symm hpm2) (pair_symm hcond)) hpm
          · rw [if_pos hpm2, if_neg hcond, lookupPair, if_pos hpm2]
        · rw [if_neg hpm2, ih, lookupPair, if_neg hpm2]

theorem lookupPair_append {u v : String} :
    ∀ l1 l2 : AdjList,
      lookupPair u v (l1 ++ l2) =
        match lookupPair u v l1 with
        | some w => some w
        | none => lookupPair u v l2 := by
  intro l1 l2
  induction l1 with
  | nil => rfl
  | cons t rest ih =>
      obtain ⟨p, q, y⟩ := t
      rw [List.cons_append, lookupPair, lookupPair]
      by_cases hm : (p = u ∧ q = v) ∨ (p = v ∧ q = u)
      · rw [if_pos hm, if_pos hm]
      · rw [if_neg hm, if_neg hm, ih]

theorem lookupPair_addEdge {G : Graph} (hd : G.directed = false)
    (a b : String) (w : ℚ) (u v : String) :
    lookupPair u v (addEdge G a b w).adj =
      if (a = u ∧ b = v) ∨ (a = v ∧ b = u) then
        mergeO (lookupPair a b G.adj) (some w)
      else lookupPair u v G.adj := by
  unfold addEdge
  dsimp only
  rw [if_neg (by rw [addNode_directed, addNode_directed, hd]; simp),
    addNode_adj, addNode_adj]
  cases hl : lookupPair a b G.adj with
  | some w0 =>
      dsimp only
      rw [lookupPair_setPair]
      by_cases hc : (a = u ∧ b = v) ∨ (a = v ∧ b = u)
      · rw [if_pos hc, if_pos hc, lookupPair_pair_congr hc, hl]
        rfl
      · rw [if_neg hc, if_neg hc]
  | none =>
      dsimp only
      rw [lookupPair_append]
      by_cases hc : (a = u ∧ b = v) ∨ (a = v ∧ b = u)
      · rw [if_pos hc, lookupPair_pair_congr hc, hl]
        dsimp only
        rw [lookupPair, if_pos (by tauto : (a = u ∧ b = v) ∨ (a = v ∧ b = u))]
        rfl
      · rw [if_neg hc]
        cases hu : lookupPair u v G.adj with
        | some y => rfl
        | none =>
            dsimp only
            rw [lookupPair, if_neg (by tauto), lookupPair]

theorem pairWeights_cons (e : RawEdge) (rest : List RawEdge) (u v : String) :
    pairWeights (e :: rest) u v =
      match pyFloat e.w with
      | Except.ok w =>
          if (e.src = u ∧ e.dst = v) ∨ (e.src = v ∧ e.dst = u) then
            w :: pairWeights rest u v
          else pairWeights rest u v
      | Except.error _ => pairWeights rest u v := by
  unfold pairWeights
  rw [List.filterMap_cons]
  cases hp : pyFloat e.w with
  | error s => rfl
  | ok w =>
      by_cases hc : (e.src = u ∧ e.dst = v) ∨ (e.src = v ∧ e.dst = u)
      · simp only [hp, if_pos hc]
      · simp only [hp, if_neg hc]

theorem build_graph_go_lookupPair (u v : String) :
    ∀ (edges : List RawEdge) (G G' : Graph), G.directed = false →
      build_graph_go edges G = Except.ok G' →
      lookupPair u v G'.adj =
        mergeO (lookupPair u v G.adj) (listMin (pairWeights edges u v)) := by
  intro edges
  induction edges with
  | nil =>
      intro G G' _ h
      rw [build_graph_go] at h
      injection h with h
      subst h
      have : pairWeights [] u v = [] := rfl
      rw [this, listMin, mergeO_none_right]
  | cons e rest ih =>
      intro G G' hd hok
      rw [build_graph_go] at hok
      cases hp : pyFloat e.w with
      | error s => rw [hp] at hok; exact absurd hok (by simp)
      | ok w =>
          rw [hp] at hok
          have hd1 : (addEdge G e.src e.dst w).directed = false := by
            rw [addEdge_directed]; exact hd
          rw [ih _ _ hd1 hok, lookupPair_addEdge hd, pairWeights_cons, hp]
          dsimp only
          by_cases hc : (e.src = u ∧ e.dst = v) ∨ (e.src = v ∧ e.dst = u)
          · rw [if_pos hc, if_pos hc, lookupPair_pair_congr hc G.adj, mergeO_assoc,
              listMin_cons]
          · rw [if_neg hc, if_neg hc]

/-- C2: for every edge list of well-formed edges built with
`directed = false`, the travel-time matrix is symmetric, and the weight
stored for any unordered node pair is the minimum of all input edge weights
joining that pair (so duplicate edges collapse to their minimum). -/
theorem undirected_matrix_symm_minmerge (edges : List RawEdge) (G : Graph)
    (hok : build_graph_checked edges false = Except.ok G)
    (hnn : ∀ e ∈ edges, ∀ q, e.w = PyVal.numeric q → 0 ≤ q) :
    (∀ u v, all_pairs_travel_time_matrix G u v = all_pairs_travel_time_matrix G v u) ∧
    (∀ u v, lookupPair u v G.adj = listMin (pairWeights edges u v)) := by
  have hd : G.directed = false := build_graph_go_directed edges _ G hok
  constructor
  · intro u v
    unfold all_pairs_travel_time_matrix
    apply listMin_congr
    intro c
    constructor <;> intro hc <;>
      · rcases hasWalk_of_mem_walkCosts hc with ⟨m, hm, hwk⟩
        exact mem_walkCosts_of_hasWalk (HasWalk.reverse hd hwk) hm
  · intro u v
    have h := build_graph_go_lookupPair u v edges ⟨false, [], []⟩ G rfl hok
    rw [h]
    rfl

theorem undirected_matrix_symm_minmerge_witness :
    (all_pairs_travel_time_matrix ⟨false, [("A", "B", 10)], ["A", "B"]⟩ "A" "B" =
      all_pairs_travel_time_matrix ⟨false, [("A", "B", 10)], ["A", "B"]⟩ "B" "A") ∧
    (lookupPair "A" "B" [("A", "B", 10)] =
      listMin (pairWeights
        [⟨"A", "B", PyVal.numeric 10⟩, ⟨"B", "A", PyVal.numeric 12⟩] "A" "B")) ∧
    all_pairs_travel_time_matrix ⟨false, [("A", "B", 10)], ["A", "B"]⟩ "A" "B" = some 10 := by
  have hnn : ∀ e ∈ [(⟨"A", "B", PyVal.numeric 10⟩ : RawEdge),
      ⟨"B", "A", PyVal.numeric 12⟩], ∀ q, e.w = PyVal.numeric q → 0 ≤ q := by
    rintro e he q hq
    rcases List.mem_cons.mp he with rfl | he
    · simp at hq; rw [← hq]; norm_num
    · simp at he
      subst he
      simp at hq
      rw [← hq]
      norm_num
  have h := undirected_matrix_symm_minmerge
    [⟨"A", "B", PyVal.numeric 10⟩, ⟨"B", "A", PyVal.numeric 12⟩]
    ⟨false, [("A", "B", 10)], ["A", "B"]⟩ (by with_unfolding_all rfl) hnn
  exact ⟨h.1 "A" "B", h.2 "A" "B", by with_unfolding_all rfl⟩

/-! ## Claim C3: rejection of malformed edges -/

/-- C3 counterexample: an edge whose `travel_time_minutes` is the negative
number `-5` is NOT rejected: `build_graph` succeeds, and a travel-time
matrix is produced from the resulting graph (with a negative entry). -/
theorem malformed_edges_counterexample :
    build_graph_checked [⟨"A", "B", PyVal.numeric (-5)⟩] true =
      Except.ok ⟨true, [("A", "B", -5)], ["A", "B"]⟩ ∧
    all_pairs_travel_time_matrix ⟨true, [("A", "B", -5)], ["A", "B"]⟩ "A" "B" =
      some (-5) := by
  constructor
  · rfl
  · with_unfolding_all rfl

/-- C3 amended: graph construction fails fast (so no graph and no
travel-time matrix is produced) exactly when some edge weight is
non-numeric, the `float` conversion raising on it; edges with negative
numeric weights are NOT rejected — construction succeeds on them. -/
theorem malformed_edges_amended (edges : List RawEdge) (d : Bool) :
    (∃ G, build_graph_checked edges d = Except.ok G) ↔
      ∀ e ∈ edges, e.w ≠ PyVal.nonNumeric := by
  unfold build_graph_checked
  suffices h : ∀ (edges' : List RawEdge) (G : Graph),
      (∃ G', build_graph_go edges' G = Except.ok G') ↔
        ∀ e ∈ edges', e.w ≠ PyVal.nonNumeric from h edges _
  intro edges'
  induction edges' with
  | nil =>
      intro G
      constructor
      · intro _ e he
        simp at he
      · intro _
        exact ⟨G, rfl⟩
  | cons e rest ih =>
      intro G
      rw [build_graph_go]
      cases hew : e.w with
      | nonNumeric =>
          rw [pyFloat]
          constructor
          · rintro ⟨G', hG'⟩
            simp at hG'
          · intro h
            exact absurd hew (h e (List.mem_cons_self _ _))
      | numeric q =>
          rw [pyFloat]
          constructor
          · intro h e' he'
            rcases List.mem_cons.mp he' with rfl | he'
            · rw [hew]
              simp
            · exact (ih _).mp h e' he'
          · intro h
            exact (ih _).mpr (fun e' he' => h e' (List.mem_cons_of_mem _ he'))

/-! ## Claim C8: the capacity lower bound -/

/-- C8 counterexample: on the empty job list with capacity 100 the code
returns `max(1, ceil(0/100)) = 1`, while `ceil(total_demand/capacity) = 0`,
so the computed bound does not equal `ceil(total_demand/capacity)` for every
job list. -/
theorem capacity_lower_bound_counterexample :
    basic_lower_bounds [] 100 480 = 1 ∧
    (⌈((List.map (fun j => j.demand) ([] : List Job)).sum) / (100 : ℚ)⌉ : ℤ) = 0 ∧
    (1 : ℤ) ≠ 0 := by
  refine ⟨by with_unfolding_all rfl, by simp, by norm_num⟩

/-- C8 amended: `basic_lower_bounds` computes
`max(1, ceil(total_demand / vehicle_capacity))`; for every nonempty job
list with positive demands (the `PickupJob` invariant) and positive vehicle
capacity, this equals `ceil(total_demand / vehicle_capacity)` exactly as the
claim states (e.g. total demand 230 at capacity 100 gives 3). -/
theorem capacity_lower_bound (jobs : List Job) (cap : ℚ) (slen : ℤ)
    (hne : jobs ≠ []) (hpos : ∀ j ∈ jobs, 0 < j.demand) (hcap : 0 < cap) :
    basic_lower_bounds jobs cap slen =
      ⌈(jobs.map (fun j => j.demand)).sum / cap⌉ := by
  unfold basic_lower_bounds
  have hsum : 0 < (jobs.map (fun j => j.demand)).sum := by
    cases jobs with
    | nil => exact absurd rfl hne
    | cons j rest =>
        have h1 : 0 < j.demand := hpos j (List.mem_cons_self _ _)
        have h2 : 0 ≤ (rest.map (fun j => j.demand)).sum := by
          apply List.sum_nonneg
          intro x hx
          rcases List.mem_map.mp hx with ⟨j', hj', rfl⟩
          exact le_of_lt (hpos j' (List.mem_cons_of_mem _ hj'))
        simp only [List.map_cons, List.sum_cons]
        linarith
  have hq : (0 : ℚ) < (jobs.map (fun j => j.demand)).sum / cap :=
    div_pos hsum hcap
  have hceil : 1 ≤ ⌈(jobs.map (fun j => j.demand)).sum / cap⌉ :=
    Int.ceil_pos.mpr hq
  exact max_eq_right hceil

theorem capacity_lower_bound_witness :
    basic_lower_bounds
      [mkJob "A" 0 60 130 8 0 0 0 0 0 0, mkJob "B" 0 60 100 8 0 0 0 0 0 0] 100 480 = 3 := by
  rw [capacity_lower_bound
    [mkJob "A" 0 60 130 8 0 0 0 0 0 0, mkJob "B" 0 60 100 8 0 0 0 0 0 0] 100 480
    (by simp)
    (by
      intro j hj
      rcases List.mem_cons.mp hj with rfl | hj
      · norm_num [mkJob]
      · simp at hj
        subst hj
        norm_num [mkJob])
    (by norm_num)]
  with_unfolding_all rfl

/-! ## Claim C9: the tight-window diagnostic -/

/-- C9: a job whose depot travel time is finite is flagged by
`tight_windows` (with the "too tight" row) iff its window duration is
strictly below `max(depot travel, service_time, min_service_pad)`, and an
unflagged job has window duration at least that maximum. -/
theorem tight_windows_iff (travel : TravelTimes) (depot : String) (pad : ℚ)
    (j : Job) (t : ℚ) (ht : travel depot j.node_id = some t) :
    (tight_windows [j] travel depot pad ≠ [] ↔
      j.latest - j.earliest < max t (max j.service_time pad)) ∧
    (tight_windows [j] travel depot pad = [] →
      max t (max j.service_time pad) ≤ j.latest - j.earliest) := by
  have hval : tight_windows [j] travel depot pad =
      if j.latest - j.earliest < max t (max j.service_time pad) then
        [(j.node_id, TightFlag.tooTight (j.latest - j.earliest)
          (max t (max j.service_time pad)))]
      else [] := by
    unfold tight_windows
    rw [List.filterMap_cons, List.filterMap_nil]
    unfold tightRow
    rw [ht]
    dsimp only
    by_cases hw0 : j.latest - j.earliest < max t (max j.service_time pad)
    · simp only [if_pos hw0]
    · simp only [if_neg hw0]
  rw [hval]
  by_cases hw : j.latest - j.earliest < max t (max j.service_time pad)
  · rw [if_pos hw]
    exact ⟨⟨fun _ => hw, fun _ => by simp⟩, fun h => absurd h (by simp)⟩
  · rw [if_neg hw]
    exact ⟨⟨fun h => absurd rfl h, fun h => absurd h hw⟩, fun _ => le_of_not_lt hw⟩

theorem tight_windows_iff_witness :
    tight_windows [mkJob "A" 0 10 5 8 0 0 0 0 0 0] (fun _ _ => some 40) "D" 10 ≠ [] :=
  ((tight_windows_iff (fun _ _ => some 40) "D" 10
      (mkJob "A" 0 10 5 8 0 0 0 0 0 0) 40 rfl).1).mpr (by norm_num [mkJob])

/-! ## Claims C6 and C7: window repair -/

theorem half_nonneg {d : ℤ} (hd : 0 < d) : 0 ≤ d.fdiv 2 ∧ 0 ≤ d - d.fdiv 2 := by
  rw [Int.fdiv_eq_ediv _ (by norm_num)]
  omega

theorem shift_triple {e l : ℚ} {g : ℤ} (hel : e ≤ l) (hg : 0 < g) :
    e - ((g.fdiv 2 : ℤ) : ℚ) ≤ e ∧ l ≤ l + ((g - g.fdiv 2 : ℤ) : ℚ) ∧
      e - ((g.fdiv 2 : ℤ) : ℚ) ≤ l + ((g - g.fdiv 2 : ℤ) : ℚ) := by
  obtain ⟨h1, h2⟩ := half_nonneg hg
  have h1q : (0 : ℚ) ≤ ((g.fdiv 2 : ℤ) : ℚ) := by exact_mod_cast h1
  have h2q : (0 : ℚ) ≤ ((g - g.fdiv 2 : ℤ) : ℚ) := by exact_mod_cast h2
  exact ⟨by linarith, by linarith, by linarith⟩

theorem shift_triple' {e l : ℚ} {d s : ℤ} (hel : e ≤ l) (hd : 0 < d) (hs : 0 ≤ s) :
    e - ((d.fdiv 2 + s.fdiv 2 : ℤ) : ℚ) ≤ e ∧
    l ≤ l + ((d - d.fdiv 2 + s.fdiv 2 : ℤ) : ℚ) ∧
    e - ((d.fdiv 2 + s.fdiv 2 : ℤ) : ℚ) ≤ l + ((d - d.fdiv 2 + s.fdiv 2 : ℤ) : ℚ) := by
  obtain ⟨h1, h2⟩ := half_nonneg hd
  have hs2 : 0 ≤ s.fdiv 2 := by
    rw [Int.fdiv_eq_ediv _ (by norm_num)]
    omega
  have h1q : (0 : ℚ) ≤ ((d.fdiv 2 + s.fdiv 2 : ℤ) : ℚ) := by exact_mod_cast by omega
  have h2q : (0 : ℚ) ≤ ((d - d.fdiv 2 + s.fdiv 2 : ℤ) : ℚ) := by exact_mod_cast by omega
  exact ⟨by linarith, by linarith, by linarith⟩

theorem repairWindow_widens (travel : TravelTimes) (depot : String)
    (minw slack : ℤ) (hs : 0 ≤ slack) (j : Job) (hj : j.earliest ≤ j.latest) :
    (repairWindow travel depot minw slack j).earliest ≤ j.earliest ∧
    j.latest ≤ (repairWindow travel depot minw slack j).latest ∧
    (repairWindow travel depot minw slack j).earliest ≤
      (repairWindow travel depot minw slack j).latest := by
  unfold repairWindow
  cases ht : travel depot j.node_id with
  | none => exact ⟨le_refl _, le_refl _, hj⟩
  | some t =>
      dsimp only
      split
      · split
        · rename_i h1 h2
          have p1 := shift_triple' hj (Int.sub_pos.mpr h1) hs
          have p2 := shift_triple p1.2.2 (Int.sub_pos.mpr h2)
          exact ⟨p2.1.trans p1.1, p1.2.1.trans p2.2.1, p2.2.2⟩
        · rename_i h1 h2
          exact shift_triple' hj (Int.sub_pos.mpr h1) hs
      · split
        · rename_i h1 h2
          exact shift_triple hj (Int.sub_pos.mpr h2)
        · exact ⟨le_refl _, le_refl _, hj⟩

/-- C6: for every job list with chronological input windows (the `PickupJob`
invariant `earliest ≤ latest`), every depot id, every travel-time matrix and
every non-negative slack, `widen_and_shift_windows` never narrows a window:
the output `earliest` is at most the input `earliest`, the output `latest`
is at least the input `latest`, and every output window is chronological. -/
theorem widen_never_narrows (jobs : List Job) (travel : TravelTimes)
    (depot : String) (minw slack : ℤ) (hs : 0 ≤ slack)
    (hc : ∀ j ∈ jobs, j.earliest ≤ j.latest)
    (i : ℕ) (hi : i < jobs.length)
    (hi' : i < (widen_and_shift_windows jobs travel depot minw slack).length) :
    ((widen_and_shift_windows jobs travel depot minw slack).get ⟨i, hi'⟩).earliest ≤
      (jobs.get ⟨i, hi⟩).earliest ∧
    (jobs.get ⟨i, hi⟩).latest ≤
      ((widen_and_shift_windows jobs travel depot minw slack).get ⟨i, hi'⟩).latest ∧
    ((widen_and_shift_windows jobs travel depot minw slack).get ⟨i, hi'⟩).earliest ≤
      ((widen_and_shift_windows jobs travel depot minw slack).get ⟨i, hi'⟩).latest := by
  have hg : (widen_and_shift_windows jobs travel depot minw slack).get ⟨i, hi'⟩ =
      repairWindow travel depot minw slack (jobs.get ⟨i, hi⟩) := by
    unfold widen_and_shift_windows
    simp
  rw [hg]
  exact repairWindow_widens travel depot minw slack hs _
    (hc _ (jobs.get_mem _ _))

theorem widen_never_narrows_witness :
    ((widen_and_shift_windows [mkJob "A" 0 10 5 8 0 0 0 0 0 0]
        (fun _ _ => some 40) "D" 60 45).get
        ⟨0, by simp [widen_and_shift_windows]⟩).earliest ≤
      (mkJob "A" 0 10 5 8 0 0 0 0 0 0).earliest := by
  have h := widen_never_narrows [mkJob "A" 0 10 5 8 0 0 0 0 0 0]
    (fun _ _ => some 40) "D" 60 45 (by norm_num)
    (by
      intro j hj
      simp at hj
      subst hj
      norm_num [mkJob])
    0 (by simp) (by simp [widen_and_shift_windows])
  simpa using h.1

/-- C7 counterexample: job window `[0, 10]` (duration 10), depot travel 40,
service 8, slack 45, minimum window 60.  The missing amount is
`need - have = 93 - 10 = 83`, so the claim predicts growth
`83 + 45 = 128`; the code grows the window to `[-63, 74]`, i.e. by
`137 - 10 = 127` minutes (each side gains `slack // 2 = 22`, so an odd slack
contributes one minute less than the claim states). -/
theorem widen_growth_counterexample :
    widen_and_shift_windows [mkJob "A" 0 10 5 8 0 0 0 0 0 0]
      (fun _ _ => some 40) "D" 60 45 = [mkJob "A" (-63) 74 5 8 0 0 0 0 0 0] ∧
    pyRound ((40 : ℚ) + 8 + 45) - ⌊(10 : ℚ) - 0⌋ = 83 ∧
    ((74 : ℚ) - (-63)) - (10 - 0) ≠ (83 : ℚ) + 45 := by
  refine ⟨by with_unfolding_all rfl, by with_unfolding_all rfl, by norm_num⟩

/-- C7 amended: for a job with finite depot travel time whose window
duration satisfies `⌊duration⌋ < need` where
`need = round(t_dep + service_time + slack)`, and whose repaired duration
reaches the global minimum window (so the second growth phase does not
fire), `widen_and_shift_windows` pulls `earliest` earlier by
`(need - ⌊duration⌋) // 2 + slack // 2`, pushes `latest` later by
`(need - ⌊duration⌋ - (need - ⌊duration⌋) // 2) + slack // 2`, and hence
grows the window by exactly the missing amount `need - ⌊duration⌋` plus
`2 * (slack // 2)` — the slack rounded down to an even number of minutes
(not plus the slack itself: the floor/ceil split is applied only to the
missing amount, while the slack is halved with floor on both sides). -/
theorem widen_short_window_growth (travel : TravelTimes) (depot : String)
    (minw slack : ℤ) (j : Job) (t : ℚ)
    (ht : travel depot j.node_id = some t)
    (h1 : ⌊j.latest - j.earliest⌋ < pyRound (t + j.service_time + (slack : ℚ)))
    (h2 : minw ≤ pyRound (t + j.service_time + (slack : ℚ)) + 2 * slack.fdiv 2) :
    (repairWindow travel depot minw slack j).earliest =
      j.earliest -
        (((pyRound (t + j.service_time + (slack : ℚ)) - ⌊j.latest - j.earliest⌋).fdiv 2
          + slack.fdiv 2 : ℤ) : ℚ) ∧
    (repairWindow travel depot minw slack j).latest =
      j.latest +
        ((pyRound (t + j.service_time + (slack : ℚ)) - ⌊j.latest - j.earliest⌋
          - (pyRound (t + j.service_time + (slack : ℚ)) - ⌊j.latest - j.earliest⌋).fdiv 2
          + slack.fdiv 2 : ℤ) : ℚ) ∧
    (repairWindow travel depot minw slack j).latest -
        (repairWindow travel depot minw slack j).earliest =
      (j.latest - j.earliest) +
        ((pyRound (t + j.service_time + (slack : ℚ)) - ⌊j.latest - j.earliest⌋
          + 2 * slack.fdiv 2 : ℤ) : ℚ) := by
  unfold repairWindow
  rw [ht]
  dsimp only
  simp only [if_pos h1]
  have hkey : ⌊j.latest +
      ((pyRound (t + j.service_time + (slack : ℚ)) - ⌊j.latest - j.earliest⌋
        - (pyRound (t + j.service_time + (slack : ℚ)) - ⌊j.latest - j.earliest⌋).fdiv 2
        + slack.fdiv 2 : ℤ) : ℚ) -
      (j.earliest -
        (((pyRound (t + j.service_time + (slack : ℚ)) - ⌊j.latest - j.earliest⌋).fdiv 2
          + slack.fdiv 2 : ℤ) : ℚ))⌋ =
      pyRound (t + j.service_time + (slack : ℚ)) + 2 * slack.fdiv 2 := by
    have hrw : j.latest +
        ((pyRound (t + j.service_time + (slack : ℚ)) - ⌊j.latest - j.earliest⌋
          - (pyRound (t + j.service_time + (slack : ℚ)) - ⌊j.latest - j.earliest⌋).fdiv 2
          + slack.fdiv 2 : ℤ) : ℚ) -
        (j.earliest -
          (((pyRound (t + j.service_time + (slack : ℚ)) - ⌊j.latest - j.earliest⌋).fdiv 2
            + slack.fdiv 2 : ℤ) : ℚ)) =
        (j.latest - j.earliest) +
          ((pyRound (t + j.service_time + (slack : ℚ)) - ⌊j.latest - j.earliest⌋
            + 2 * slack.fdiv 2 : ℤ) : ℚ) := by
      push_cast
      ring
    rw [hrw, Int.floor_add_int]
    omega
  simp only [hkey]
  have hneg : ¬(pyRound (t + j.service_time + (slack : ℚ)) + 2 * slack.fdiv 2 < minw) := by
    omega
  simp only [if_neg hneg]
  refine ⟨trivial, trivial, ?_⟩
  push_cast
  ring

theorem widen_short_window_growth_witness :
    (repairWindow (fun _ _ => some 40) "D" 60 45
        (mkJob "A" 0 10 5 8 0 0 0 0 0 0)).earliest = -63 := by
  have h := widen_short_window_growth (fun _ _ => some 40) "D" 60 45
    (mkJob "A" 0 10 5 8 0 0 0 0 0 0) 40 rfl
    (by with_unfolding_all decide) (by with_unfolding_all decide)
  rw [h.1]
  with_unfolding_all rfl

/-! ## Supporting lemmas: job synthesis -/

theorem interpCrossAux_eq_none {thr : ℚ} :
    ∀ (p : ℚ × ℚ) (rest : List (ℚ × ℚ)),
      (∀ a b : ℚ × ℚ, (a, b) ∈ (p :: rest).zip rest → ¬(a.2 < thr ∧ thr ≤ b.2)) →
      interpCrossAux thr p rest = none := by
  intro p rest
  induction rest generalizing p with
  | nil => intro _; rfl
  | cons q rest ih =>
      intro h
      obtain ⟨t0, v0⟩ := p
      obtain ⟨t1, v1⟩ := q
      rw [interpCrossAux]
      rw [if_neg (h (t0, v0) (t1, v1) (by rw [List.zip_cons_cons]; simp))]
      exact ih (t1, v1) (fun a b hab =>
        h a b (by rw [List.zip_cons_cons]; exact List.mem_cons_of_mem _ hab))

theorem interpCrossAux_eq_none_of_below {thr : ℚ} :
    ∀ (p : ℚ × ℚ) (rest : List (ℚ × ℚ)), (∀ q ∈ rest, q.2 < thr) →
      interpCrossAux thr p rest = none := by
  intro p rest
  induction rest generalizing p with
  | nil => intro _; rfl
  | cons q rest ih =>
      intro h
      obtain ⟨t0, v0⟩ := p
      obtain ⟨t1, v1⟩ := q
      rw [interpCrossAux]
      rw [if_neg (by
        rintro ⟨_, hc2⟩
        exact absurd hc2 (not_le.mpr (h (t1, v1) (List.mem_cons_self _ _))))]
      exact ih (t1, v1) (fun a ha => h a (List.mem_cons_of_mem _ ha))

theorem interpCrossTime_eq_none_of_below {pts : List (ℚ × ℚ)} {thr : ℚ}
    (h : ∀ p ∈ pts, p.2 < thr) : interpCrossTime pts thr = none := by
  cases pts with
  | nil => rfl
  | cons p rest =>
      exact interpCrossAux_eq_none_of_below p rest
        (fun q hq => h q (List.mem_cons_of_mem _ hq))

theorem jobsForNode_eq_nil_of_none {cid : String} {pts : List (ℚ × ℚ)}
    {mv lat lon θ τ buf svc : ℚ} {split : Option ℚ}
    (h : interpCrossTime pts (θ * mv) = none) :
    jobsForNode cid pts mv lat lon θ τ buf svc split = [] := by
  unfold jobsForNode
  dsimp only
  rw [h]

theorem jobsForNode_node_id {cid : String} {pts : List (ℚ × ℚ)}
    {mv lat lon θ τ buf svc : ℚ} {split : Option ℚ} :
    ∀ j ∈ jobsForNode cid pts mv lat lon θ τ buf svc split, j.node_id = cid := by
  intro j hj
  unfold jobsForNode at hj
  dsimp only at hj
  split at hj
  · simp at hj
  · split at hj
    · simp at hj
    · split at hj
      · split at hj
        · rcases List.mem_map.mp hj with ⟨k, _, rfl⟩
          rfl
        · simp at hj
          rw [hj]
          rfl
      · simp at hj
        rw [hj]
        rfl

theorem mem_insertJob {a j : Job} :
    ∀ {l : List Job}, j ∈ insertJob a l ↔ j = a ∨ j ∈ l := by
  intro l
  induction l with
  | nil => simp [insertJob]
  | cons b rest ih =>
      rw [insertJob]
      split
      · simp
      · rw [List.mem_cons, List.mem_cons, ih]
        tauto

theorem mem_sortJobs {j : Job} :
    ∀ {l : List Job}, j ∈ sortJobs l ↔ j ∈ l := by
  intro l
  induction l with
  | nil => simp [sortJobs]
  | cons a rest ih =>
      rw [sortJobs, mem_insertJob, List.mem_cons, ih]

/-! ## Claim C4: curves below threshold produce no job -/

/-- C4: for every collection node whose forecast samples all stay strictly
below `θ · max_volume`, `build_pickup_jobs` emits zero jobs for that node. -/
theorem no_job_when_below_threshold (future : List (String × List (ℚ × ℚ)))
    (cauldrons : List Cauldron) (θ τ buf svc : ℚ) (split : Option ℚ)
    (cid : String) (m : Cauldron) (hm : metaLookup cauldrons cid = some m)
    (hbelow : ∀ pts, (cid, pts) ∈ future → ∀ p ∈ pts, p.2 < θ * m.max_volume) :
    (build_pickup_jobs future cauldrons θ τ buf svc split).filter
      (fun j => j.node_id == cid) = [] := by
  rw [List.filter_eq_nil_iff]
  intro j hj
  unfold build_pickup_jobs at hj
  rw [mem_sortJobs] at hj
  rcases List.mem_flatMap.mp hj with ⟨col, hcol, hjcol⟩
  simp only [beq_iff_eq]
  cases hml : metaLookup cauldrons col.1 with
  | none => rw [hml] at hjcol; simp at hjcol
  | some m' =>
      rw [hml] at hjcol
      dsimp only at hjcol
      by_cases hc : col.1 = cid
      · exfalso
        rw [hc] at hml
        rw [hm] at hml
        injection hml with hml
        subst hml
        rw [jobsForNode_eq_nil_of_none (interpCrossTime_eq_none_of_below
          (hbelow col.2 (by rw [← hc]; exact hcol)))] at hjcol
        simp at hjcol
      · rw [jobsForNode_node_id j hjcol]
        exact hc

theorem no_job_when_below_threshold_witness :
    (build_pickup_jobs [("C4", [(0, 50), (60, 80)])] [⟨"C4", 100, 0, 0⟩]
      (9 / 10) (1 / 5) 45 8 none).filter (fun j => j.node_id == "C4") = [] :=
  no_job_when_below_threshold [("C4", [(0, 50), (60, 80)])] [⟨"C4", 100, 0, 0⟩]
    (9 / 10) (1 / 5) 45 8 none "C4" ⟨"C4", 100, 0, 0⟩ (by rfl)
    (by
      intro pts hpts p hp
      simp at hpts
      subst hpts
      simp at hp
      rcases hp with rfl | rfl <;> with_unfolding_all decide)

/-! ## Claim C10: a curve already at or above the threshold at the start -/

/-- C10: if the first forecast sample is already at or above the threshold
`θ · max_volume` and no later consecutive pair goes from strictly below the
threshold to at-or-above it, the node gets no pickup job: the crossing scan
of `_interp_cross_time` starts at the second sample and requires a strictly
below previous sample, so a vessel predicted to be overflowing from the
start of the horizon is never assigned a job. -/
theorem no_job_when_already_over (cid : String) (pts : List (ℚ × ℚ))
    (mv lat lon θ τ buf svc : ℚ) (split : Option ℚ)
    (p0 : ℚ × ℚ) (rest : List (ℚ × ℚ)) (hpts : pts = p0 :: rest)
    (h0 : θ * mv ≤ p0.2)
    (hnc : ∀ a b : ℚ × ℚ, (a, b) ∈ pts.zip pts.tail →
      ¬(a.2 < θ * mv ∧ θ * mv ≤ b.2)) :
    jobsForNode cid pts mv lat lon θ τ buf svc split = [] := by
  subst hpts
  apply jobsForNode_eq_nil_of_none
  exact interpCrossAux_eq_none p0 rest (by simpa using hnc)

theorem no_job_when_already_over_witness :
    jobsForNode "C10" [(0, 95), (60, 96)] 100 0 0 (9 / 10) (1 / 5) 45 8 none = [] :=
  no_job_when_already_over "C10" [(0, 95), (60, 96)] 100 0 0 (9 / 10) (1 / 5) 45 8
    none (0, 95) [(60, 96)] rfl (by with_unfolding_all decide)
    (by
      intro a b hab
      simp at hab
      obtain ⟨rfl, rfl⟩ := hab
      with_unfolding_all decide)

/-! ## Claim C5: splitting oversized jobs -/

/-- C5: when a split capacity `cap > 0` is configured and the computed
demand `d` exceeds it (and clears the `1e-6` skip threshold),
`build_pickup_jobs` emits exactly `⌈d / cap⌉` sibling jobs for the node:
each sibling carries demand `d / ⌈d / cap⌉`, shares the node id, window and
service time, the sibling demands sum to `d` exactly, each sibling demand is
at most `cap`, and the siblings carry pairwise distinct id counters (hence
distinct Python job-id strings). -/
theorem job_split_properties (cid : String) (pts : List (ℚ × ℚ))
    (mv lat lon θ τ buf svc cap ct d : ℚ)
    (hcross : interpCrossTime pts (θ * mv) = some ct)
    (hd : d = max 0 (levelAt pts (ct - buf) - τ * mv))
    (heps : 1 / 1000000 < d) (hcap : 0 < cap) (hsplit : cap < d) :
    (jobsForNode cid pts mv lat lon θ τ buf svc (some cap)).length =
      (⌈d / cap⌉ : ℤ).toNat ∧
    (∀ j ∈ jobsForNode cid pts mv lat lon θ τ buf svc (some cap),
      j.demand = d / ((⌈d / cap⌉ : ℤ) : ℚ) ∧ j.node_id = cid ∧
      j.earliest = ct - buf ∧ j.latest = max (ct + 15) (ct - buf + 15) ∧
      j.service_time = svc) ∧
    ((jobsForNode cid pts mv lat lon θ τ buf svc (some cap)).map
      (fun j => j.demand)).sum = d ∧
    (∀ j ∈ jobsForNode cid pts mv lat lon θ τ buf svc (some cap),
      j.demand ≤ cap) ∧
    ((jobsForNode cid pts mv lat lon θ τ buf svc (some cap)).map
      (fun j => j.idK)).Nodup := by
  have hn1 : 1 ≤ (⌈d / cap⌉ : ℤ) := by
    have h1 : (1 : ℚ) ≤ d / cap := by
      rw [le_div_iff₀ hcap]
      linarith
    calc (1 : ℤ) = ⌈(1 : ℚ)⌉ := by norm_num
      _ ≤ ⌈d / cap⌉ := Int.ceil_le_ceil h1
  have hnq : (1 : ℚ) ≤ ((⌈d / cap⌉ : ℤ) : ℚ) := by exact_mod_cast hn1
  have hn0 : ((⌈d / cap⌉ : ℤ) : ℚ) ≠ 0 := by linarith
  have hout : jobsForNode cid pts mv lat lon θ τ buf svc (some cap) =
      (List.range (⌈d / cap⌉ : ℤ).toNat).map
        (fun k => mkJob cid (ct - buf) (max (ct + 15) (ct - buf + 15))
          (d / ((⌈d / cap⌉ : ℤ) : ℚ)) svc (τ * mv) (θ * mv) mv lat lon k) := by
    unfold jobsForNode
    dsimp only
    rw [hcross]
    dsimp only
    rw [← hd, if_neg (not_le.mpr heps), if_pos ⟨ne_of_gt hcap, hsplit⟩]
  rw [hout]
  refine ⟨by simp, ?_, ?_, ?_, ?_⟩
  · intro j hj
    rcases List.mem_map.mp hj with ⟨k, _, rfl⟩
    exact ⟨rfl, rfl, rfl, rfl, rfl⟩
  · rw [List.map_map]
    have hconst : ((fun j => j.demand) ∘
        (fun k => mkJob cid (ct - buf) (max (ct + 15) (ct - buf + 15))
          (d / ((⌈d / cap⌉ : ℤ) : ℚ)) svc (τ * mv) (θ * mv) mv lat lon k)) =
        (fun _ : ℕ => d / ((⌈d / cap⌉ : ℤ) : ℚ)) := rfl
    rw [hconst, List.map_const', List.sum_replicate, List.length_range,
      nsmul_eq_mul]
    have hz : ((⌈d / cap⌉ : ℤ).toNat : ℤ) = ⌈d / cap⌉ :=
      Int.toNat_of_nonneg (by omega)
    have hcast : (((⌈d / cap⌉ : ℤ).toNat : ℕ) : ℚ) = ((⌈d / cap⌉ : ℤ) : ℚ) := by
      exact_mod_cast hz
    rw [hcast, mul_comm, div_mul_cancel₀ _ hn0]
  · intro j hj
    rcases List.mem_map.mp hj with ⟨k, _, rfl⟩
    have hceil : d / cap ≤ ((⌈d / cap⌉ : ℤ) : ℚ) := Int.le_ceil _
    have hd_le : d ≤ ((⌈d / cap⌉ : ℤ) : ℚ) * cap := by
      rw [div_le_iff₀ hcap] at hceil
      linarith
    have hnpos : (0 : ℚ) < ((⌈d / cap⌉ : ℤ) : ℚ) := by linarith
    show d / ((⌈d / cap⌉ : ℤ) : ℚ) ≤ cap
    rw [div_le_iff₀ hnpos]
    linarith
  · rw [List.map_map]
    have hid : ((fun j => j.idK) ∘
        (fun k => mkJob cid (ct - buf) (max (ct + 15) (ct - buf + 15))
          (d / ((⌈d / cap⌉ : ℤ) : ℚ)) svc (τ * mv) (θ * mv) mv lat lon k)) =
        (fun k : ℕ => k) := rfl
    rw [hid, List.map_id']
    exact List.nodup_range _

theorem job_split_properties_witness :
    (jobsForNode "C5" [(0, 800), (60, 900)] 1000 0 0 (9 / 10) (1 / 5) 0 8
      (some 100)).length = 7 ∧
    ∀ j ∈ jobsForNode "C5" [(0, 800), (60, 900)] 1000 0 0 (9 / 10) (1 / 5) 0 8
      (some 100), j.demand = 100 := by
  have h := job_split_properties "C5" [(0, 800), (60, 900)] 1000 0 0 (9 / 10)
    (1 / 5) 0 8 100 60 700
    (by with_unfolding_all rfl)
    (by with_unfolding_all rfl)
    (by with_unfolding_all decide)
    (by with_unfolding_all decide)
    (by with_unfolding_all decide)
  constructor
  · rw [h.1]
    with_unfolding_all rfl
  · intro j hj
    rw [(h.2.1 j hj).1]
    with_unfolding_all rfl
